import Mathlib

/-!
Verification of the pond data-enrichment pipeline.

Shallow embedding of the core logic of the repository:
  - add_translations.py : translate_text, translate_batch (filtering, chunking,
    retry/fallback, split/apply), the work selector inside
    add_translations_to_level, the batch loop with its progress file, and the
    save / checkpoint event order;
  - parallel_extract.py : run_parallel_extraction (sharding and merge);
  - update_wortzerlegung.py : the result-application step of update_level.

The remote translator is modelled as a function from (text, attempt number)
to Option String, where none models a raised exception for that attempt.
URL decoding (urllib.parse.unquote) is an external collaborator and is
modelled as an abstract function parameter uq.
-/

namespace Pond

/-- Whitespace test mirroring the character class stripped by the Python
str.strip method. -/
def isPySpace (c : Char) : Bool :=
  c == ' ' || c == '\t' || c == '\n' || c == '\r' || c == '\x0b' || c == '\x0c'

/-- Model of the Python str.strip method: remove leading and trailing
whitespace. -/
def pyStrip (s : String) : String :=
  ⟨((s.data.dropWhile isPySpace).reverse.dropWhile isPySpace).reverse⟩

/-- Model of the Python str.join method applied to a separator. -/
def pyJoin (sep : String) : List String → String
  | [] => ""
  | [t] => t
  | t :: rest => t ++ sep ++ pyJoin sep rest

/-- Model of the Python str.split method with a non-empty separator, on
character lists, with fuel for structural recursion: split at every
non-overlapping occurrence of the separator, left to right, keeping empty
parts. -/
def pySplitAux (sep : List Char) : Nat → List Char → List Char → List (List Char)
  | _, [], acc => [acc.reverse]
  | 0, l, acc => [acc.reverse ++ l]
  | fuel + 1, c :: rest, acc =>
    if sep.isPrefixOf (c :: rest) then
      acc.reverse :: pySplitAux sep fuel ((c :: rest).drop sep.length) []
    else
      pySplitAux sep fuel rest (c :: acc)

/-- Model of the Python str.split method with a non-empty separator. -/
def pySplit (sep : String) (s : String) : List String :=
  (pySplitAux sep.data s.data.length s.data []).map (fun l => ⟨l⟩)

/-- The delimiter used by translate_batch to join texts (source line 70). -/
def DELIMITER : String := " ||| "

/-- The character ceiling used by translate_batch (source line 71). -/
def MAX_CHARS : Nat := 4500

/-- The filtering phase of translate_batch (source line 66): keep the
stripped text of every item that is non-empty and not whitespace-only,
together with its original index. -/
def validTexts (texts : List String) : List (Nat × String) :=
  (texts.enum.filter (fun p => p.2 != "" && pyStrip p.2 != "")).map
    (fun p => (p.1, pyStrip p.2))

/-- The per-item cost used by the chunking loop (source line 79):
length of the text plus the delimiter overhead. -/
def itemCost (p : Nat × String) : Nat := p.2.length + DELIMITER.length

/-- Cumulative cost of a chunk, as accounted by the chunking loop. -/
def chunkCost (c : List (Nat × String)) : Nat := (c.map itemCost).sum

/-- The chunking loop of translate_batch (source lines 74-88), with the
running chunk and running length as accumulators.  A flush happens when
adding the next item would exceed the ceiling and the current chunk is
non-empty; the pending chunk is appended at the end if non-empty. -/
def makeChunksAux (C : Nat) :
    List (Nat × String) → List (Nat × String) → Nat → List (List (Nat × String))
  | [], cur, _ => if cur = [] then [] else [cur]
  | p :: rest, cur, clen =>
    let tl := itemCost p
    if C < clen + tl ∧ cur ≠ [] then
      cur :: makeChunksAux C rest [p] tl
    else
      makeChunksAux C rest (cur ++ [p]) (clen + tl)

/-- The chunking phase of translate_batch: split the filtered items into
chunks that respect the character ceiling. -/
def makeChunks (C : Nat) (valid : List (Nat × String)) : List (List (Nat × String)) :=
  makeChunksAux C valid [] 0

/-- The retry loop shared by translate_text and translate_batch
(source lines 45-49 and 96-99): try the remote call for attempts
0 .. R-1 and return the first successful result, none when every attempt
raises.  The remote translator tr maps (text, attempt number) to
Option String, none modelling a raised exception. -/
def retryTranslate (tr : String → Nat → Option String) (R : Nat) (text : String) :
    Option String :=
  (List.range R).findSome? (fun a => tr text a)

/-- Single-item translation, translate_text (source lines 38-57): empty
input returns the empty string without any remote call; otherwise the
stripped text is sent with retries, and after the final failure the
stripped text itself is returned. -/
def translate_text (tr : String → Nat → Option String) (R : Nat)
    (germanText : String) : String :=
  if germanText = "" then ""
  else
    match retryTranslate tr R (pyStrip germanText) with
    | some result => result
    | none => pyStrip germanText

/-- The split/apply step of translate_batch (source lines 104-108): walk the
chunk with a running position, writing the matching translated part when one
exists and the item's own text otherwise. -/
def applyChunk (parts : List String) :
    Nat → List String → List (Nat × String) → List String
  | _, final, [] => final
  | j, final, p :: rest =>
    let v := if j < parts.length then parts.getD j "" else p.2
    applyChunk parts (j + 1) (final.set p.1 v) rest

/-- The total-failure fallback of translate_batch (source lines 115-116):
every item of the chunk is written back as its own (stripped) text. -/
def fallbackChunk (final : List String) (chunk : List (Nat × String)) :
    List String :=
  chunk.foldl (fun acc p => acc.set p.1 p.2) final

/-- Processing of one chunk by translate_batch (source lines 93-116): join the
chunk texts with the delimiter, retry the remote call, and on success split
the result on three pipes, strip each part and apply positionally; when every
attempt fails write the fallback.  With zero configured attempts the Python
loop body never runs, so the result list is left untouched. -/
def processChunk (tr : String → Nat → Option String) (R : Nat)
    (final : List String) (chunk : List (Nat × String)) : List String :=
  if R = 0 then final
  else
    match retryTranslate tr R (pyJoin DELIMITER (chunk.map Prod.snd)) with
    | some result =>
      applyChunk ((pySplit "|||" result).map pyStrip) 0 final chunk
    | none => fallbackChunk final chunk

/-- Batch translation, translate_batch (source lines 60-118): filter and
strip the texts, chunk them under the character ceiling, and process each
chunk into a result list pre-filled with empty strings. -/
def translate_batch (tr : String → Nat → Option String) (R : Nat)
    (texts : List String) : List String :=
  if texts = [] then []
  else if validTexts texts = [] then List.replicate texts.length ""
  else
    (makeChunks MAX_CHARS (validTexts texts)).foldl (processChunk tr R)
      (List.replicate texts.length "")

theorem makeChunksAux_flatten (C : Nat) :
    ∀ (l cur : List (Nat × String)) (clen : Nat),
      (makeChunksAux C l cur clen).flatten = cur ++ l := by
  intro l
  induction l with
  | nil =>
    intro cur clen
    by_cases h : cur = [] <;> simp [makeChunksAux, h]
  | cons p rest ih =>
    intro cur clen
    simp only [makeChunksAux]
    by_cases h : C < clen + itemCost p ∧ cur ≠ []
    · simp [h, ih]
    · simp [h, ih]

theorem makeChunksAux_ne_nil (C : Nat) :
    ∀ (l cur : List (Nat × String)) (clen : Nat) (c : List (Nat × String)),
      c ∈ makeChunksAux C l cur clen → c ≠ [] := by
  intro l
  induction l with
  | nil =>
    intro cur clen c hc
    by_cases h : cur = [] <;> simp [makeChunksAux, h] at hc
    subst hc; exact h
  | cons p rest ih =>
    intro cur clen c hc
    simp only [makeChunksAux] at hc
    by_cases h : C < clen + itemCost p ∧ cur ≠ []
    · simp only [if_pos h, List.mem_cons] at hc
      rcases hc with rfl | hc
      · exact h.2
      · exact ih _ _ _ hc
    · simp only [if_neg h] at hc
      exact ih _ _ _ hc

theorem makeChunksAux_cost (C : Nat) :
    ∀ (l cur : List (Nat × String)) (clen : Nat) (c : List (Nat × String)),
      clen = chunkCost cur →
      (cur ≠ [] → chunkCost cur ≤ C ∨ cur.length = 1) →
      c ∈ makeChunksAux C l cur clen →
      chunkCost c ≤ C ∨ c.length = 1 := by
  intro l
  induction l with
  | nil =>
    intro cur clen c hlen hinv hc
    by_cases h : cur = [] <;> simp [makeChunksAux, h] at hc
    subst hc; exact hinv h
  | cons p rest ih =>
    intro cur clen c hlen hinv hc
    simp only [makeChunksAux] at hc
    by_cases h : C < clen + itemCost p ∧ cur ≠ []
    · simp only [if_pos h, List.mem_cons] at hc
      rcases hc with rfl | hc
      · exact hinv h.2
      · refine ih [p] (itemCost p) c ?_ ?_ hc
        · simp [chunkCost]
        · intro _; right; rfl
    · simp only [if_neg h] at hc
      refine ih (cur ++ [p]) (clen + itemCost p) c ?_ ?_ hc
      · simp [chunkCost, hlen]
      · intro _
        rcases Classical.em (cur = []) with hcur | hcur
        · subst hcur; right; rfl
        · left
          have hle : ¬ C < clen + itemCost p := fun hlt => h ⟨hlt, hcur⟩
          have : chunkCost (cur ++ [p]) = clen + itemCost p := by
            simp [chunkCost, hlen]
          omega

theorem retryTranslate_none {tr : String → Nat → Option String} (R : Nat)
    (text : String) (hfail : ∀ s a, tr s a = none) :
    retryTranslate tr R text = none := by
  simp [retryTranslate, List.findSome?_eq_none_iff, hfail]

theorem applyChunk_length (parts : List String) :
    ∀ (chunk : List (Nat × String)) (j : Nat) (final : List String),
      (applyChunk parts j final chunk).length = final.length := by
  intro chunk
  induction chunk with
  | nil => intro j final; rfl
  | cons p rest ih =>
    intro j final
    show (applyChunk parts (j + 1) (final.set p.1 _) rest).length = final.length
    rw [ih]; simp

theorem fallbackChunk_length :
    ∀ (chunk : List (Nat × String)) (final : List String),
      (fallbackChunk final chunk).length = final.length := by
  intro chunk
  induction chunk with
  | nil => intro final; rfl
  | cons p rest ih =>
    intro final
    show (fallbackChunk (final.set p.1 p.2) rest).length = final.length
    rw [ih]; simp

theorem processChunk_length (tr : String → Nat → Option String) (R : Nat)
    (final : List String) (chunk : List (Nat × String)) :
    (processChunk tr R final chunk).length = final.length := by
  unfold processChunk
  by_cases h : R = 0
  · simp [h]
  · simp only [if_neg h]
    cases retryTranslate tr R (pyJoin DELIMITER (chunk.map Prod.snd)) with
    | none => exact fallbackChunk_length chunk final
    | some result => exact applyChunk_length _ chunk 0 final

theorem foldl_processChunk_length (tr : String → Nat → Option String) (R : Nat) :
    ∀ (chunksL : List (List (Nat × String))) (final : List String),
      (chunksL.foldl (processChunk tr R) final).length = final.length := by
  intro chunksL
  induction chunksL with
  | nil => intro final; rfl
  | cons c rest ih =>
    intro final
    show (rest.foldl (processChunk tr R) (processChunk tr R final c)).length
        = final.length
    rw [ih, processChunk_length]

theorem applyChunk_getElem?_not_mem (parts : List String) (q : Nat) :
    ∀ (chunk : List (Nat × String)) (j : Nat) (final : List String),
      (∀ p ∈ chunk, p.1 ≠ q) →
      (applyChunk parts j final chunk)[q]? = final[q]? := by
  intro chunk
  induction chunk with
  | nil => intro j final _; rfl
  | cons p rest ih =>
    intro j final h
    show (applyChunk parts (j + 1) (final.set p.1 _) rest)[q]? = final[q]?
    rw [ih _ _ (fun x hx => h x (List.mem_cons_of_mem p hx))]
    exact List.getElem?_set_ne (h p (List.mem_cons_self p rest))

theorem fallbackChunk_getElem?_not_mem (q : Nat) :
    ∀ (chunk : List (Nat × String)) (final : List String),
      (∀ p ∈ chunk, p.1 ≠ q) →
      (fallbackChunk final chunk)[q]? = final[q]? := by
  intro chunk
  induction chunk with
  | nil => intro final _; rfl
  | cons p rest ih =>
    intro final h
    show (fallbackChunk (final.set p.1 p.2) rest)[q]? = final[q]?
    rw [ih _ (fun x hx => h x (List.mem_cons_of_mem p hx))]
    exact List.getElem?_set_ne (h p (List.mem_cons_self p rest))

theorem processChunk_getElem?_not_mem (tr : String → Nat → Option String)
    (R : Nat) (q : Nat) (final : List String) (chunk : List (Nat × String))
    (h : ∀ p ∈ chunk, p.1 ≠ q) :
    (processChunk tr R final chunk)[q]? = final[q]? := by
  unfold processChunk
  by_cases hR : R = 0
  · simp [hR]
  · simp only [if_neg hR]
    cases retryTranslate tr R (pyJoin DELIMITER (chunk.map Prod.snd)) with
    | none => exact fallbackChunk_getElem?_not_mem q chunk final h
    | some result => exact applyChunk_getElem?_not_mem _ q chunk 0 final h

theorem foldl_processChunk_not_mem (tr : String → Nat → Option String) (R : Nat)
    (q : Nat) :
    ∀ (chunksL : List (List (Nat × String))) (final : List String),
      (∀ c ∈ chunksL, ∀ p ∈ c, p.1 ≠ q) →
      (chunksL.foldl (processChunk tr R) final)[q]? = final[q]? := by
  intro chunksL
  induction chunksL with
  | nil => intro final _; rfl
  | cons c rest ih =>
    intro final h
    show (rest.foldl (processChunk tr R) (processChunk tr R final c))[q]?
        = final[q]?
    rw [ih _ (fun x hx => h x (List.mem_cons_of_mem c hx))]
    exact processChunk_getElem?_not_mem tr R q final c
      (h c (List.mem_cons_self c rest))

theorem fallbackChunk_getElem?_mem (q : Nat) (t : String) :
    ∀ (chunk : List (Nat × String)) (final : List String),
      (chunk.map Prod.fst).Nodup → (q, t) ∈ chunk → q < final.length →
      (fallbackChunk final chunk)[q]? = some t := by
  intro chunk
  induction chunk with
  | nil => intro final _ hmem _; exact absurd hmem (List.not_mem_nil _)
  | cons p rest ih =>
    intro final hnd hmem hq
    have hnd' := hnd
    rw [List.map_cons, List.nodup_cons] at hnd'
    show (fallbackChunk (final.set p.1 p.2) rest)[q]? = some t
    rcases List.mem_cons.mp hmem with rfl | hmem
    · have hne : ∀ x ∈ rest, x.1 ≠ q := by
        intro x hx hxq
        have hm : x.1 ∈ rest.map Prod.fst := List.mem_map_of_mem Prod.fst hx
        exact hnd'.1 (hxq ▸ hm)
      rw [fallbackChunk_getElem?_not_mem q rest _ hne]
      exact List.getElem?_set_self hq
    · exact ih _ hnd'.2 hmem (by simpa using hq)

theorem applyChunk_getElem?_at (parts : List String) :
    ∀ (chunk : List (Nat × String)) (s : Nat) (final : List String) (k : Nat),
      k < chunk.length →
      (chunk.map Prod.fst).Nodup →
      (∀ p ∈ chunk, p.1 < final.length) →
      (applyChunk parts s final chunk)[(chunk.getD k (0, "")).1]? =
        some (if s + k < parts.length then parts.getD (s + k) ""
              else (chunk.getD k (0, "")).2) := by
  intro chunk
  induction chunk with
  | nil => intro s final k hk _ _; exact absurd hk (by simp)
  | cons p rest ih =>
    intro s final k hk hnd hlt
    have hnd' := hnd
    rw [List.map_cons, List.nodup_cons] at hnd'
    cases k with
    | zero =>
      have hne : ∀ x ∈ rest, x.1 ≠ p.1 := by
        intro x hx hxq
        have hm : x.1 ∈ rest.map Prod.fst := List.mem_map_of_mem Prod.fst hx
        exact hnd'.1 (hxq ▸ hm)
      show (applyChunk parts (s + 1) (final.set p.1 _) rest)[p.1]? = _
      rw [applyChunk_getElem?_not_mem parts p.1 rest (s + 1) _ hne]
      rw [List.getElem?_set_self (by simpa using hlt p (List.mem_cons_self p rest))]
      simp
    | succ k =>
      show (applyChunk parts (s + 1) (final.set p.1 _) rest)[(rest.getD k (0, "")).1]? = _
      rw [ih (s + 1) _ k (by simpa using hk) hnd'.2
            (fun x hx => by simpa using hlt x (List.mem_cons_of_mem p hx))]
      have : s + 1 + k = s + (k + 1) := by omega
      rw [this]
      rfl

theorem mem_validTexts {texts : List String} {q : Nat} {t : String} :
    (q, t) ∈ validTexts texts ↔
      ∃ s, texts[q]? = some s ∧ s ≠ "" ∧ pyStrip s ≠ "" ∧ t = pyStrip s := by
  constructor
  · intro h
    rcases List.mem_map.mp h with ⟨p, hp, hpq⟩
    rcases List.mem_filter.mp hp with ⟨hpe, hpred⟩
    have hget : texts[p.1]? = some p.2 := by
      have := List.mem_enum_iff_getElem?.mp hpe
      simpa using this
    have h1 : p.1 = q := congrArg Prod.fst hpq
    have h2 : pyStrip p.2 = t := congrArg Prod.snd hpq
    refine ⟨p.2, h1 ▸ hget, ?_, ?_, h2.symm⟩
    · intro hx
      simp [hx] at hpred
    · intro hx
      simp [hx] at hpred
  · rintro ⟨s, hget, hne, hstrip, rfl⟩
    refine List.mem_map.mpr ⟨(q, s), List.mem_filter.mpr ⟨?_, ?_⟩, rfl⟩
    · exact List.mem_enum_iff_getElem?.mpr (by simpa using hget)
    · simp [hne, hstrip]

theorem mem_validTexts_lt {texts : List String} {q : Nat} {t : String}
    (h : (q, t) ∈ validTexts texts) : q < texts.length := by
  rcases mem_validTexts.mp h with ⟨s, hget, _⟩
  exact (List.getElem?_eq_some.mp hget).1

theorem enumFrom_fst_pairwise {α : Type} :
    ∀ (l : List α) (n : Nat),
      (l.enumFrom n).Pairwise (fun a b => a.1 < b.1) := by
  intro l
  induction l with
  | nil => intro n; exact List.Pairwise.nil
  | cons x xs ih =>
    intro n
    rw [List.enumFrom_cons]
    refine List.Pairwise.cons ?_ (ih (n + 1))
    intro y hy
    rcases List.mem_iff_getElem?.mp hy with ⟨i, hi⟩
    rw [List.getElem?_enumFrom] at hi
    rcases Option.map_eq_some'.mp hi with ⟨a, _, ha⟩
    have : y.1 = n + 1 + i := by rw [← ha]
    omega

theorem validTexts_fst_nodup (texts : List String) :
    ((validTexts texts).map Prod.fst).Nodup := by
  have h1 : ((validTexts texts).map Prod.fst) =
      (texts.enum.filter (fun p => p.2 != "" && pyStrip p.2 != "")).map Prod.fst := by
    rw [validTexts, List.map_map]
    exact List.map_congr_left (fun p _ => rfl)
  rw [h1]
  have h2 : (texts.enum.filter (fun p => p.2 != "" && pyStrip p.2 != "")).Pairwise
      (fun a b => a.1 < b.1) :=
    List.Pairwise.sublist (List.filter_sublist _) (enumFrom_fst_pairwise texts 0)
  have h3 := (List.pairwise_map (l := texts.enum.filter
      (fun p => p.2 != "" && pyStrip p.2 != ""))).mpr
    (h2.imp (fun h => h))
  exact h3.imp (fun h => Nat.ne_of_lt h)

theorem foldl_processChunk_fail_mem (tr : String → Nat → Option String) (R : Nat)
    (hfail : ∀ s a, tr s a = none) (hR : R ≠ 0) (q : Nat) (t : String) :
    ∀ (chunksL : List (List (Nat × String))) (final : List String),
      ((chunksL.flatten).map Prod.fst).Nodup →
      (∀ p ∈ chunksL.flatten, p.1 < final.length) →
      (q, t) ∈ chunksL.flatten →
      (chunksL.foldl (processChunk tr R) final)[q]? = some t := by
  intro chunksL
  induction chunksL with
  | nil => intro final _ _ hmem; exact absurd hmem (List.not_mem_nil _)
  | cons c rest ih =>
    intro final hnd hlt hmem
    rw [List.flatten_cons] at hnd hlt hmem
    rw [List.map_append] at hnd
    have hdisj := List.nodup_append.mp hnd
    show (rest.foldl (processChunk tr R) (processChunk tr R final c))[q]? = some t
    rcases List.mem_append.mp hmem with hc | hrest
    · have hq : q ∈ c.map Prod.fst := List.mem_map_of_mem Prod.fst hc
      have huntouched : ∀ c' ∈ rest, ∀ p ∈ c', p.1 ≠ q := by
        intro c' hc' p hp hpq
        have hm : p.1 ∈ (rest.flatten).map Prod.fst :=
          List.mem_map_of_mem Prod.fst (List.mem_flatten_of_mem hc' hp)
        exact hdisj.2.2 hq (hpq ▸ hm)
      rw [foldl_processChunk_not_mem tr R q rest _ huntouched]
      unfold processChunk
      rw [if_neg hR, retryTranslate_none R _ hfail]
      exact fallbackChunk_getElem?_mem q t c final hdisj.1 hc
        (hlt (q, t) (List.mem_append_left _ hc))
    · refine ?_
      have hlen := processChunk_length tr R final c
      apply ih
      · exact hdisj.2.1
      · intro p hp
        rw [hlen]
        exact hlt p (List.mem_append_right _ hp)
      · exact hrest

theorem validTexts_eq_nil_of_blank {texts : List String}
    (h : ∀ t ∈ texts, pyStrip t = "") : validTexts texts = [] := by
  rw [validTexts, List.map_eq_nil_iff, List.filter_eq_nil_iff]
  intro p hp
  have hmem : p.2 ∈ texts := by
    have := List.mem_enum_iff_getElem?.mp hp
    exact List.getElem?_mem (by simpa using this)
  simp [h p.2 hmem]

theorem translate_batch_length (tr : String → Nat → Option String) (R : Nat)
    (texts : List String) :
    (translate_batch tr R texts).length = texts.length := by
  unfold translate_batch
  by_cases h1 : texts = []
  · simp [h1]
  · rw [if_neg h1]
    by_cases h2 : validTexts texts = []
    · simp [h2]
    · rw [if_neg h2, foldl_processChunk_length, List.length_replicate]

theorem translate_batch_blank (tr : String → Nat → Option String) (R : Nat)
    (texts : List String) (i : Nat) (s : String)
    (hget : texts[i]? = some s) (hblank : pyStrip s = "") :
    (translate_batch tr R texts)[i]? = some "" := by
  have hi : i < texts.length := (List.getElem?_eq_some.mp hget).1
  unfold translate_batch
  have h1 : texts ≠ [] := by
    intro h; subst h; simp at hget
  rw [if_neg h1]
  by_cases h2 : validTexts texts = []
  · rw [if_pos h2]
    exact List.getElem?_replicate_of_lt hi
  · rw [if_neg h2]
    rw [foldl_processChunk_not_mem tr R i _ _ ?_]
    · exact List.getElem?_replicate_of_lt hi
    · intro c hc p hp hpq
      have hpv : p ∈ validTexts texts := by
        have hfl : (makeChunks MAX_CHARS (validTexts texts)).flatten
            = validTexts texts := by
          simpa using makeChunksAux_flatten MAX_CHARS (validTexts texts) [] 0
        rw [← hfl]
        exact List.mem_flatten_of_mem hc hp
      have hpv2 : (p.1, p.2) ∈ validTexts texts := hpv
      rcases mem_validTexts.mp hpv2 with ⟨s2, hget2, _, hstrip2, hts⟩
      rw [hpq, hget] at hget2
      have hs2 : s2 = s := (Option.some.inj hget2).symm
      exact hstrip2 (hs2 ▸ hblank)

/-- Claim C1 (amended): for every ceiling C and every input sequence of texts,
the chunking phase of translate_batch, applied to the filtered items
(every item that is non-empty after whitespace-trimming), outputs batches
whose concatenation equals the filtered item sequence (so every surviving
item appears in exactly one batch and batch order and within-batch order
match input order), no batch is empty, and every batch's sum of
(text length + delimiter overhead) is at most C except when the batch is
a single item whose cost alone exceeds C. -/
theorem batcher_chunks_sound (C : Nat) (texts : List String) :
    (makeChunks C (validTexts texts)).flatten = validTexts texts ∧
    ∀ c ∈ makeChunks C (validTexts texts),
      c ≠ [] ∧ (chunkCost c ≤ C ∨ (c.length = 1 ∧ C < chunkCost c)) := by
  constructor
  · simpa using makeChunksAux_flatten C (validTexts texts) [] 0
  · intro c hc
    refine ⟨makeChunksAux_ne_nil C _ _ _ c hc, ?_⟩
    have h := makeChunksAux_cost C (validTexts texts) [] 0 c (by simp [chunkCost])
      (by intro h; exact absurd rfl h) hc
    rcases h with h | h
    · exact Or.inl h
    · rcases Nat.lt_or_ge C (chunkCost c) with hlt | hle
      · exact Or.inr ⟨h, hlt⟩
      · exact Or.inl hle

/-- Claim C1, counterexample to the claim as stated: the input text made of a
single blank character is non-empty, yet the chunking phase of
translate_batch produces no batch at all for it (it is removed by the
filtering phase), so it does not appear in exactly one batch. -/
theorem batcher_drops_blank_item :
    (" " ≠ "") ∧ makeChunks MAX_CHARS (validTexts [" "]) = [] := by
  constructor
  · decide
  · rfl

/-- Claim C1, witness: concrete evaluation of the amended theorem at
ceiling 10 and texts [ab, blank, cdefgh], whose filtered items chunk into
two batches. -/
theorem batcher_chunks_sound_witness :
    ((makeChunks 10 (validTexts ["ab", " ", "cdefgh"])).flatten
       = validTexts ["ab", " ", "cdefgh"]) ∧
    ([(2, "cdefgh")] ≠ [] ∧
      (chunkCost [(2, "cdefgh")] ≤ 10 ∨
        ([(2, "cdefgh")].length = 1 ∧ 10 < chunkCost [(2, "cdefgh")]))) :=
  ⟨(batcher_chunks_sound 10 ["ab", " ", "cdefgh"]).1,
   (batcher_chunks_sound 10 ["ab", " ", "cdefgh"]).2 [(2, "cdefgh")] (by decide)⟩

/-- Claim C9: for every input list of texts, translate_batch returns a list
of exactly as many strings as the input; every position whose input is empty
or consists only of whitespace is returned as the empty string; and when
every input is blank the result is a list of empty strings that does not
depend on the remote translator at all (no remote call is made). -/
theorem translate_batch_shape (tr : String → Nat → Option String) (R : Nat)
    (texts : List String) :
    (translate_batch tr R texts).length = texts.length ∧
    (∀ (i : Nat) (s : String), texts[i]? = some s → pyStrip s = "" →
      (translate_batch tr R texts)[i]? = some "") ∧
    ((∀ t ∈ texts, pyStrip t = "") →
      ∀ g : String → Nat → Option String,
        translate_batch g R texts = List.replicate texts.length "") := by
  refine ⟨translate_batch_length tr R texts, ?_, fun hall g => ?_⟩
  · intro i s hget hblank
    exact translate_batch_blank tr R texts i s hget hblank
  unfold translate_batch
  by_cases h1 : texts = []
  · simp [h1]
  · rw [if_neg h1, if_pos (validTexts_eq_nil_of_blank hall)]

/-- Claim C9, witness: concrete evaluation with a remote translator that
echoes its input; the whitespace-only position 1 comes back empty. -/
theorem translate_batch_shape_witness :
    (translate_batch (fun s _ => some s) 3 ["Hallo", " ", ""]).length
        = (["Hallo", " ", ""] : List String).length ∧
    (translate_batch (fun s _ => some s) 3 ["Hallo", " ", ""])[1]? = some "" :=
  ⟨(translate_batch_shape (fun s _ => some s) 3 ["Hallo", " ", ""]).1,
   (translate_batch_shape (fun s _ => some s) 3 ["Hallo", " ", ""]).2.1 1 " "
     rfl rfl⟩

/-- Claim C3: in the split/apply step of translate_batch, when the remote
result splits into fewer parts than the chunk has items, every item whose
position is beyond the available parts receives its own source text, every
item within the available parts receives the corresponding stripped part,
and the step preserves the length of the result list, so it never indexes
out of range (the hypotheses hold at every call site: chunk indices come
from the filtered enumeration and the result list is pre-sized to the
input). -/
theorem split_mismatch_fallback (parts final : List String)
    (chunk : List (Nat × String))
    (hnd : (chunk.map Prod.fst).Nodup)
    (hlt : ∀ p ∈ chunk, p.1 < final.length) :
    (applyChunk parts 0 final chunk).length = final.length ∧
    ∀ k, k < chunk.length →
      (parts.length ≤ k →
        (applyChunk parts 0 final chunk)[(chunk.getD k (0, "")).1]? =
          some (chunk.getD k (0, "")).2) ∧
      (k < parts.length →
        (applyChunk parts 0 final chunk)[(chunk.getD k (0, "")).1]? =
          some (parts.getD k "")) := by
  refine ⟨applyChunk_length parts chunk 0 final, ?_⟩
  intro k hk
  have h := applyChunk_getElem?_at parts chunk 0 final k hk hnd hlt
  rw [Nat.zero_add] at h
  constructor
  · intro hple
    rw [h, if_neg (by omega)]
  · intro hplt
    rw [h, if_pos hplt]

/-- Claim C3, witness: a remote result with a single part applied to a
two-item chunk; the second item falls back to its own source text and the
result list keeps its length. -/
theorem split_mismatch_fallback_witness :
    (applyChunk ((pySplit "|||" "Dog").map pyStrip) 0 ["", "", ""]
        [(0, "Hund"), (2, "Katze")]).length = (["", "", ""] : List String).length ∧
    (applyChunk ((pySplit "|||" "Dog").map pyStrip) 0 ["", "", ""]
        [(0, "Hund"), (2, "Katze")])[2]? = some "Katze" :=
  ⟨(split_mismatch_fallback ((pySplit "|||" "Dog").map pyStrip) ["", "", ""]
      [(0, "Hund"), (2, "Katze")] (by decide) (by decide)).1,
   ((split_mismatch_fallback ((pySplit "|||" "Dog").map pyStrip) ["", "", ""]
      [(0, "Hund"), (2, "Katze")] (by decide) (by decide)).2 1 (by decide)).1
     (by decide)⟩

/-- Claim C2 (amended): when the remote call fails on every attempt and at
least one attempt is configured, translate_text returns the
whitespace-stripped original source text (empty input returns the empty
string), and translate_batch returns every item as its whitespace-stripped
original source text, with blank items as the empty string; both functions
are total, so no exception escapes their boundary. -/
theorem translate_total_failure (tr : String → Nat → Option String) (R : Nat)
    (t : String) (texts : List String)
    (hfail : ∀ s a, tr s a = none) (hR : 0 < R) :
    translate_text tr R t = (if t = "" then "" else pyStrip t) ∧
    translate_batch tr R texts =
      texts.map (fun s => if pyStrip s = "" then "" else pyStrip s) := by
  constructor
  · unfold translate_text
    by_cases h : t = ""
    · simp [h]
    · rw [if_neg h, if_neg h, retryTranslate_none R _ hfail]
  · apply List.ext_getElem?
    intro n
    rw [List.getElem?_map]
    by_cases hn : n < texts.length
    · have hs : texts[n]? = some texts[n] := List.getElem?_eq_getElem hn
      rw [hs]
      by_cases hb : pyStrip texts[n] = ""
      · rw [translate_batch_blank tr R texts n texts[n] hs hb]
        simp [hb]
      · have hne0 : texts[n] ≠ "" := by
          intro he
          exact hb (by rw [he]; rfl)
        have hmem : (n, pyStrip texts[n]) ∈ validTexts texts :=
          mem_validTexts.mpr ⟨texts[n], hs, hne0, hb, rfl⟩
        unfold translate_batch
        have h1 : texts ≠ [] := by
          intro h; subst h; simp at hn
        rw [if_neg h1]
        have h2 : validTexts texts ≠ [] := by
          intro h; rw [h] at hmem; exact absurd hmem (List.not_mem_nil _)
        rw [if_neg h2]
        have hfl : (makeChunks MAX_CHARS (validTexts texts)).flatten
            = validTexts texts := by
          simpa using makeChunksAux_flatten MAX_CHARS (validTexts texts) [] 0
        rw [foldl_processChunk_fail_mem tr R hfail (by omega) n (pyStrip texts[n])
              _ _ ?_ ?_ ?_]
        · simp [hb]
        · rw [hfl]; exact validTexts_fst_nodup texts
        · intro p hp
          rw [hfl] at hp
          rw [List.length_replicate]
          exact mem_validTexts_lt (show (p.1, p.2) ∈ validTexts texts from hp)
        · rw [hfl]; exact hmem
    · have hlen := translate_batch_length tr R texts
      rw [List.getElem?_eq_none (by omega),
          List.getElem?_eq_none (by omega)]
      rfl

/-- Claim C2, counterexample to the claim as stated: with a remote call that
always fails, translate_text on an input with surrounding whitespace returns
the stripped text, which differs from the original source value. -/
theorem translate_text_strips_cx :
    translate_text (fun _ _ => none) 3 " Hallo " = "Hallo" ∧
    "Hallo" ≠ " Hallo " := by
  constructor
  · rfl
  · decide

/-- Claim C2, witness: concrete evaluation of the amended theorem with an
always-failing remote call. -/
theorem translate_total_failure_witness :
    translate_text (fun _ _ => none) 2 " Hund " =
      (if (" Hund " : String) = "" then "" else pyStrip " Hund ") ∧
    translate_batch (fun _ _ => none) 2 ["a b ", "", " "] =
      (["a b ", "", " "] : List String).map
        (fun s => if pyStrip s = "" then "" else pyStrip s) :=
  translate_total_failure (fun _ _ => none) 2 " Hund " ["a b ", "", " "]
    (fun _ _ => rfl) (by omega)

/-- Model of a vocabulary record as consumed by the translation pipeline
(add_translations.py lines 168-198).  A dictionary field looked up with a
default is an Option value; a synonym or example entry that is not itself a
dictionary is modelled as none; a dictionary entry is the pair of its
optional german and english fields. -/
structure WordData where
  word : Option String
  english : Option String
  synonyms : List (Option (Option String × Option String))
  examples : List (Option (Option String × Option String))
deriving DecidableEq

/-- Work selection for the main english field of one record (source lines
170-176): selected when the word is non-empty and the english value is
empty, equal to the word, or equal after URL-decoding both; the text queued
for translation is the decoded word. -/
def selectMain (uq : String → String) (k : Nat) (w : WordData) :
    List (String × (Nat × String × Nat)) :=
  if w.word.getD "" ≠ "" ∧
      (w.english.getD "" = "" ∨ w.english.getD "" = w.word.getD "" ∨
        (if w.english.getD "" = "" then "" else uq (w.english.getD ""))
          = uq (w.word.getD "")) then
    [(uq (w.word.getD ""), (k, "main_english", 0))]
  else []

/-- Work selection shared by synonym and example entries (source lines
179-198): a non-dictionary entry is skipped; a dictionary entry is selected
when its german text is non-empty and its english text is empty or equal to
the german text. -/
def selectEntry (k : Nat) (tag : String)
    (p : Nat × Option (Option String × Option String)) :
    Option (String × (Nat × String × Nat)) :=
  match p.2 with
  | none => none
  | some ge =>
    if ge.1.getD "" ≠ "" ∧ (ge.2.getD "" = "" ∨ ge.2.getD "" = ge.1.getD "") then
      some (ge.1.getD "", (k, tag, p.1))
    else none

/-- The work selector for one record (source lines 168-198): the main
english field, then the synonyms in order, then the examples in order. -/
def selectTexts (uq : String → String) (k : Nat) (w : WordData) :
    List (String × (Nat × String × Nat)) :=
  selectMain uq k w
    ++ w.synonyms.enum.filterMap (selectEntry k "synonym")
    ++ w.examples.enum.filterMap (selectEntry k "example")

/-- The work selector for a record collection: records in order, each
record's items in field order. -/
def selectAll (uq : String → String) (ws : List WordData) :
    List (String × (Nat × String × Nat)) :=
  (ws.enum.map (fun p => selectTexts uq p.1 p.2)).flatten

/-- Predicate written from the words of the spec (section 4.1): the primary
field needs work iff the source word is non-empty and the translated value
is absent, empty, or textually identical to the source, where the
identical-to-source comparison is additionally performed after URL-decoding
both the source word and the translated value. -/
def specPendingMain (uq : String → String) (w : WordData) : Prop :=
  w.word.getD "" ≠ "" ∧
    (w.english.getD "" = "" ∨ w.english.getD "" = w.word.getD "" ∨
      uq (w.english.getD "") = uq (w.word.getD ""))

/-- Predicate written from the words of the spec: a synonym or example
entry needs work iff it is a pair whose source text is non-empty and whose
translated value is absent, empty, or textually identical to the source. -/
def specPendingEntry (e : Option (Option String × Option String)) : Prop :=
  ∃ g en, e = some (g, en) ∧ g.getD "" ≠ "" ∧
    (en.getD "" = "" ∨ en.getD "" = g.getD "")

theorem selectEntry_tag {k : Nat} {tag : String}
    {p : Nat × Option (Option String × Option String)}
    {y : String × (Nat × String × Nat)} (h : selectEntry k tag p = some y) :
    y.2 = (k, tag, p.1) := by
  unfold selectEntry at h
  rcases p with ⟨i, e⟩
  cases e with
  | none => exact absurd h (by simp)
  | some ge =>
    simp only at h
    by_cases hc : ge.1.getD "" ≠ "" ∧
        (ge.2.getD "" = "" ∨ ge.2.getD "" = ge.1.getD "")
    · rw [if_pos hc] at h
      rw [← Option.some.inj h]
    · rw [if_neg hc] at h
      exact absurd h (by simp)

theorem mem_filterMap_selectEntry_iff {k : Nat} {tag : String} {i : Nat}
    (l : List (Option (Option String × Option String))) :
    ((k, tag, i) ∈ (l.enum.filterMap (selectEntry k tag)).map Prod.snd ↔
      ∃ e, l[i]? = some e ∧ specPendingEntry e) := by
  constructor
  · intro h
    rcases List.mem_map.mp h with ⟨y, hy, hysnd⟩
    rcases List.mem_filterMap.mp hy with ⟨p, hpe, hps⟩
    have htag := selectEntry_tag hps
    rw [hysnd] at htag
    have hpi : p.1 = i := by
      have := congrArg (fun t => t.2.2) htag
      simpa using this.symm
    rcases p with ⟨j, e⟩
    cases e with
    | none => exact absurd hps (by simp [selectEntry])
    | some ge =>
      simp only [selectEntry] at hps
      by_cases hc : ge.1.getD "" ≠ "" ∧
          (ge.2.getD "" = "" ∨ ge.2.getD "" = ge.1.getD "")
      · refine ⟨some ge, ?_, ge.1, ge.2, rfl, hc.1, hc.2⟩
        have hmem := List.mem_enum_iff_getElem?.mp hpe
        simp only at hmem hpi
        rw [← hpi]
        exact hmem
      · rw [if_neg hc] at hps
        exact absurd hps (by simp)
  · rintro ⟨e, hget, g, en, rfl, hg, hen⟩
    refine List.mem_map.mpr
      ⟨(g.getD "", (k, tag, i)), List.mem_filterMap.mpr
        ⟨(i, some (g, en)), ?_, ?_⟩, rfl⟩
    · exact List.mem_enum_iff_getElem?.mpr (by simpa using hget)
    · simp only [selectEntry]
      rw [if_pos ⟨hg, hen⟩]

theorem selectTexts_idx (uq : String → String) (k : Nat) (w : WordData) :
    ∀ pr ∈ selectTexts uq k w, pr.2.1 = k := by
  intro pr hpr
  rcases List.mem_append.mp hpr with h | h
  · rcases List.mem_append.mp h with h1 | h2
    · unfold selectMain at h1
      by_cases hc : w.word.getD "" ≠ "" ∧
          (w.english.getD "" = "" ∨ w.english.getD "" = w.word.getD "" ∨
            (if w.english.getD "" = "" then "" else uq (w.english.getD ""))
              = uq (w.word.getD ""))
      · rw [if_pos hc] at h1
        rcases List.mem_singleton.mp h1 with rfl
        rfl
      · rw [if_neg hc] at h1
        exact absurd h1 (List.not_mem_nil _)
    · rcases List.mem_filterMap.mp h2 with ⟨p, _, hps⟩
      rw [selectEntry_tag hps]
  · rcases List.mem_filterMap.mp h with ⟨p, _, hps⟩
    rw [selectEntry_tag hps]

/-- Claim C4: for every record collection the Work Selector selects exactly
the pending (record, field) pairs: the primary field is selected iff the
source word is non-empty and the translated value is absent, empty, or
identical to the source, where for the primary field the identical
comparison is additionally performed after URL-decoding both sides (so a
decoded-vs-raw mismatch is still selected, and the queued text is the
decoded word); a synonym or example entry is selected iff it is a pair with
non-empty source text whose translation is absent, empty, or identical to
the source; and selection lists record indices in nondecreasing record
order.  Selection is a pure function of the record collection, hence
deterministic and free of side effects. -/
theorem work_selector_exact (uq : String → String) (ws : List WordData)
    (k : Nat) (w : WordData) (i : Nat) :
    ((uq (w.word.getD ""), (k, "main_english", 0)) ∈ selectTexts uq k w ↔
      specPendingMain uq w) ∧
    ((k, "synonym", i) ∈ (selectTexts uq k w).map Prod.snd ↔
      ∃ e, w.synonyms[i]? = some e ∧ specPendingEntry e) ∧
    ((k, "example", i) ∈ (selectTexts uq k w).map Prod.snd ↔
      ∃ e, w.examples[i]? = some e ∧ specPendingEntry e) ∧
    ((selectAll uq ws).map (fun q => q.2.1)).Pairwise (fun a b => a ≤ b) := by
  refine ⟨?_, ?_, ?_, ?_⟩
  · constructor
    · intro h
      rcases List.mem_append.mp h with h | h
      · rcases List.mem_append.mp h with h1 | h2
        · unfold selectMain at h1
          by_cases hc : w.word.getD "" ≠ "" ∧
              (w.english.getD "" = "" ∨ w.english.getD "" = w.word.getD "" ∨
                (if w.english.getD "" = "" then "" else uq (w.english.getD ""))
                  = uq (w.word.getD ""))
          · refine ⟨hc.1, ?_⟩
            rcases hc.2 with he | he | he
            · exact Or.inl he
            · exact Or.inr (Or.inl he)
            · by_cases hemp : w.english.getD "" = ""
              · exact Or.inl hemp
              · rw [if_neg hemp] at he
                exact Or.inr (Or.inr he)
          · rw [if_neg hc] at h1
            exact absurd h1 (List.not_mem_nil _)
        · rcases List.mem_filterMap.mp h2 with ⟨p, _, hps⟩
          have htag := selectEntry_tag hps
          have h3 : ("main_english" : String) = "synonym" :=
            congrArg (fun t : Nat × String × Nat => t.2.1) htag
          exact absurd h3 (by decide)
      · rcases List.mem_filterMap.mp h with ⟨p, _, hps⟩
        have htag := selectEntry_tag hps
        have h3 : ("main_english" : String) = "example" :=
          congrArg (fun t : Nat × String × Nat => t.2.1) htag
        exact absurd h3 (by decide)
    · intro h
      refine List.mem_append.mpr (Or.inl (List.mem_append.mpr (Or.inl ?_)))
      unfold selectMain
      have hc : w.word.getD "" ≠ "" ∧
          (w.english.getD "" = "" ∨ w.english.getD "" = w.word.getD "" ∨
            (if w.english.getD "" = "" then "" else uq (w.english.getD ""))
              = uq (w.word.getD "")) := by
        refine ⟨h.1, ?_⟩
        rcases h.2 with he | he | he
        · exact Or.inl he
        · exact Or.inr (Or.inl he)
        · by_cases hemp : w.english.getD "" = ""
          · exact Or.inl hemp
          · exact Or.inr (Or.inr (by rw [if_neg hemp]; exact he))
      rw [if_pos hc]
      exact List.mem_singleton.mpr rfl
  · rw [selectTexts, List.map_append, List.map_append]
    constructor
    · intro h
      rcases List.mem_append.mp h with h | h
      · rcases List.mem_append.mp h with h1 | h2
        · exfalso
          rcases List.mem_map.mp h1 with ⟨y, hy, hysnd⟩
          unfold selectMain at hy
          by_cases hc : w.word.getD "" ≠ "" ∧
              (w.english.getD "" = "" ∨ w.english.getD "" = w.word.getD "" ∨
                (if w.english.getD "" = "" then "" else uq (w.english.getD ""))
                  = uq (w.word.getD ""))
          · rw [if_pos hc] at hy
            rcases List.mem_singleton.mp hy with rfl
            have h3 : ("synonym" : String) = "main_english" :=
              congrArg (fun t : Nat × String × Nat => t.2.1) hysnd.symm
            exact absurd h3 (by decide)
          · rw [if_neg hc] at hy
            exact absurd hy (List.not_mem_nil _)
        · exact (mem_filterMap_selectEntry_iff w.synonyms).mp h2
      · exfalso
        rcases List.mem_map.mp h with ⟨y, hy, hysnd⟩
        rcases List.mem_filterMap.mp hy with ⟨p, _, hps⟩
        have htag := selectEntry_tag hps
        rw [hysnd] at htag
        have h3 : ("synonym" : String) = "example" :=
          congrArg (fun t : Nat × String × Nat => t.2.1) htag
        exact absurd h3 (by decide)
    · intro h
      exact List.mem_append.mpr (Or.inl (List.mem_append.mpr (Or.inr
        ((mem_filterMap_selectEntry_iff w.synonyms).mpr h))))
  · rw [selectTexts, List.map_append, List.map_append]
    constructor
    · intro h
      rcases List.mem_append.mp h with h | h
      · rcases List.mem_append.mp h with h1 | h2
        · exfalso
          rcases List.mem_map.mp h1 with ⟨y, hy, hysnd⟩
          unfold selectMain at hy
          by_cases hc : w.word.getD "" ≠ "" ∧
              (w.english.getD "" = "" ∨ w.english.getD "" = w.word.getD "" ∨
                (if w.english.getD "" = "" then "" else uq (w.english.getD ""))
                  = uq (w.word.getD ""))
          · rw [if_pos hc] at hy
            rcases List.mem_singleton.mp hy with rfl
            have h3 : ("example" : String) = "main_english" :=
              congrArg (fun t : Nat × String × Nat => t.2.1) hysnd.symm
            exact absurd h3 (by decide)
          · rw [if_neg hc] at hy
            exact absurd hy (List.not_mem_nil _)
        · exfalso
          rcases List.mem_map.mp h2 with ⟨y, hy, hysnd⟩
          rcases List.mem_filterMap.mp hy with ⟨p, _, hps⟩
          have htag := selectEntry_tag hps
          rw [hysnd] at htag
          have h3 : ("example" : String) = "synonym" :=
            congrArg (fun t : Nat × String × Nat => t.2.1) htag
          exact absurd h3 (by decide)
      · exact (mem_filterMap_selectEntry_iff w.examples).mp h
    · intro h
      exact List.mem_append.mpr (Or.inr
        ((mem_filterMap_selectEntry_iff w.examples).mpr h))
  · rw [selectAll, List.map_flatten, List.map_map]
    rw [List.pairwise_flatten]
    constructor
    · intro l hl
      rcases List.mem_map.mp hl with ⟨p, _, rfl⟩
      refine List.pairwise_of_forall_mem_list ?_
      intro a ha b hb
      rcases List.mem_map.mp ha with ⟨x, hx, rfl⟩
      rcases List.mem_map.mp hb with ⟨y, hy, rfl⟩
      rw [selectTexts_idx uq p.1 p.2 x hx, selectTexts_idx uq p.1 p.2 y hy]
    · rw [List.pairwise_map]
      refine (enumFrom_fst_pairwise ws 0).imp ?_
      intro p q hpq a ha b hb
      rcases List.mem_map.mp ha with ⟨x, hx, rfl⟩
      rcases List.mem_map.mp hb with ⟨y, hy, rfl⟩
      rw [selectTexts_idx uq p.1 p.2 x hx, selectTexts_idx uq q.1 q.2 y hy]
      exact Nat.le_of_lt hpq

/-- Mutation of the english field of a synonym or example entry by the
apply-translations loop (source lines 219 and 222); a non-dictionary entry
is untouched (such an entry is never selected, so this case is
unreachable at the call sites). -/
def setEnglish (v : String) :
    Option (Option String × Option String) → Option (Option String × Option String)
  | none => none
  | some ge => some (ge.1, some v)

/-- Mutation of one mapped field of a record by the apply-translations loop
(source lines 215-223). -/
def setField (w : WordData) (tag : String) (tidx : Nat) (v : String) : WordData :=
  if tag = "main_english" then { w with english := some v }
  else if tag = "synonym" then
    { w with synonyms := w.synonyms.modify (setEnglish v) tidx }
  else if tag = "example" then
    { w with examples := w.examples.modify (setEnglish v) tidx }
  else w

/-- The apply-translations loop (source lines 212-223): walk the mappings
with their position i, and when i is within the returned translation list
write translations[i] into the mapped field of the mapped record. -/
def applyTranslations (ws : List WordData)
    (mappings : List (Nat × String × Nat)) (translations : List String) :
    List WordData :=
  mappings.enum.foldl
    (fun acc q =>
      if q.1 < translations.length then
        acc.modify (fun w => setField w q.2.2.1 q.2.2.2 (translations.getD q.1 ""))
          q.2.1
      else acc)
    ws

/-- Processing of one batch slice by the pipeline loop (source lines
164-223): select the batch's work items; with nothing selected the batch is
unchanged, otherwise the selected texts are batch-translated and written
back through the mappings. -/
def processBatchWords (uq : String → String)
    (tr : String → Nat → Option String) (R : Nat) (batch : List WordData) :
    List WordData :=
  if selectAll uq batch = [] then batch
  else
    applyTranslations batch ((selectAll uq batch).map Prod.snd)
      (translate_batch tr R ((selectAll uq batch).map Prod.fst))

/-- Observable actions of one level run of add_translations_to_level: an
in-memory mutation of the loaded record list, a Record Store file rewrite
carrying its content, a checkpoint (progress file) write carrying the
recorded position, and the deletion of the checkpoint file. -/
inductive Ev where
  | mutate (c : List WordData)
  | store (c : List WordData)
  | ckpt (p : Nat)
  | delCkpt
deriving DecidableEq

/-- The batch loop of add_translations_to_level (source lines 160-232),
returning the final record list.  Fuel bounds the number of iterations; the
callers supply fuel at least the number of batches, and each iteration
advances the position by at least one when B is positive. -/
def runBatchesF (uq : String → String) (tr : String → Nat → Option String)
    (R B : Nat) : Nat → List WordData → Nat → List WordData
  | 0, words, _ => words
  | fuel + 1, words, start =>
    if start < words.length then
      runBatchesF uq tr R B fuel
        (words.take start
          ++ processBatchWords uq tr R
              ((words.drop start).take (min (start + B) words.length - start))
          ++ words.drop (min (start + B) words.length))
        (min (start + B) words.length)
    else words

/-- The event trace of the batch loop (source lines 160-232): an iteration
with nothing to translate writes only the progress file (lines 200-204); an
iteration that translates mutates the records in memory, rewrites the
Record Store file, and then writes the progress file (lines 209-231). -/
def batchTrace (uq : String → String) (tr : String → Nat → Option String)
    (R B : Nat) : Nat → List WordData → Nat → List Ev
  | 0, _, _ => []
  | fuel + 1, words, start =>
    if start < words.length then
      if selectAll uq
          ((words.drop start).take (min (start + B) words.length - start)) = [] then
        Ev.ckpt (min (start + B) words.length)
          :: batchTrace uq tr R B fuel words (min (start + B) words.length)
      else
        Ev.mutate (words.take start
            ++ processBatchWords uq tr R
                ((words.drop start).take (min (start + B) words.length - start))
            ++ words.drop (min (start + B) words.length))
          :: Ev.store (words.take start
            ++ processBatchWords uq tr R
                ((words.drop start).take (min (start + B) words.length - start))
            ++ words.drop (min (start + B) words.length))
          :: Ev.ckpt (min (start + B) words.length)
          :: batchTrace uq tr R B fuel
              (words.take start
                ++ processBatchWords uq tr R
                    ((words.drop start).take (min (start + B) words.length - start))
                ++ words.drop (min (start + B) words.length))
              (min (start + B) words.length)
    else []

/-- The final record list of one run of add_translations_to_level (source
lines 144-240): the loop starts at the position stored in the progress
file, zero when the file is absent, and an initial position at or past the
end returns early (line 156). -/
def pipelineResult (uq : String → String) (tr : String → Nat → Option String)
    (R B : Nat) (progress : Option Nat) (words : List WordData) :
    List WordData :=
  if words.length ≤ progress.getD 0 then words
  else runBatchesF uq tr R B words.length words (progress.getD 0)

/-- The event trace of one run of add_translations_to_level: on early
return nothing is written; otherwise the batch loop runs, then the final
save rewrites the Record Store (lines 234-236) and the progress file is
deleted (lines 238-240). -/
def pipelineTrace (uq : String → String) (tr : String → Nat → Option String)
    (R B : Nat) (progress : Option Nat) (words : List WordData) : List Ev :=
  if words.length ≤ progress.getD 0 then []
  else
    batchTrace uq tr R B words.length words (progress.getD 0)
      ++ [Ev.store (runBatchesF uq tr R B words.length words (progress.getD 0)),
          Ev.delCkpt]

/-- The property claimed by C7 as stated: every checkpoint write is
preceded, earlier in the trace, by a Record Store rewrite. -/
def storeBeforeCkpt (t : List Ev) : Prop :=
  ∀ (i p : Nat), t[i]? = some (Ev.ckpt p) →
    ∃ (j : Nat) (c : List WordData), j < i ∧ t[j]? = some (Ev.store c)

/-- Crash safety of a trace: walking the events while tracking the on-disk
store content and the in-memory record state, every checkpoint write
happens at a moment when the on-disk store equals the in-memory state. -/
def ckptSafe : List WordData → List WordData → List Ev → Prop
  | _, _, [] => True
  | disk, _, Ev.mutate c :: r => ckptSafe disk c r
  | _, mem, Ev.store c :: r => ckptSafe c mem r
  | disk, mem, Ev.ckpt _ :: r => disk = mem ∧ ckptSafe disk mem r
  | disk, mem, Ev.delCkpt :: r => ckptSafe disk mem r

/-- The first checkpoint position written in a trace. -/
def firstCkpt (t : List Ev) : Option Nat :=
  t.findSome? (fun e => match e with | Ev.ckpt p => some p | _ => none)

theorem selectTexts_remap (uq : String → String) (k : Nat) (w : WordData) :
    selectTexts uq k w = (selectTexts uq 0 w).map
      (fun pr => (pr.1, (k, pr.2.2))) := by
  unfold selectTexts
  rw [List.map_append, List.map_append]
  have hmain : selectMain uq k w =
      (selectMain uq 0 w).map (fun pr => (pr.1, (k, pr.2.2))) := by
    unfold selectMain
    by_cases hc : w.word.getD "" ≠ "" ∧
        (w.english.getD "" = "" ∨ w.english.getD "" = w.word.getD "" ∨
          (if w.english.getD "" = "" then "" else uq (w.english.getD ""))
            = uq (w.word.getD "")) <;> simp [hc]
  have hentry : ∀ (tag : String)
      (l : List (Option (Option String × Option String))),
      l.enum.filterMap (selectEntry k tag) =
        (l.enum.filterMap (selectEntry 0 tag)).map
          (fun pr => (pr.1, (k, pr.2.2))) := by
    intro tag l
    rw [List.map_filterMap]
    have hfun : (fun p => (selectEntry 0 tag p).map
        (fun pr => (pr.1, (k, pr.2.2)))) = selectEntry k tag := by
      funext p
      unfold selectEntry
      rcases p with ⟨i, e⟩
      cases e with
      | none => rfl
      | some ge =>
        simp only
        by_cases hc : ge.1.getD "" ≠ "" ∧
            (ge.2.getD "" = "" ∨ ge.2.getD "" = ge.1.getD "")
        · rw [if_pos hc, if_pos hc]
          rfl
        · rw [if_neg hc, if_neg hc]
          rfl
    rw [hfun]
  rw [hmain, hentry "synonym" w.synonyms, hentry "example" w.examples]

theorem selectTexts_eq_nil_all (uq : String → String) (w : WordData)
    (h : selectTexts uq 0 w = []) (k : Nat) : selectTexts uq k w = [] := by
  rw [selectTexts_remap uq k w, h]
  rfl

theorem selectAll_eq_nil (uq : String → String) (batch : List WordData)
    (h : ∀ w ∈ batch, selectTexts uq 0 w = []) : selectAll uq batch = [] := by
  rw [selectAll, List.flatten_eq_nil_iff]
  intro l hl
  rcases List.mem_map.mp hl with ⟨p, hp, rfl⟩
  have hw : p.2 ∈ batch := by
    have := List.mem_enum_iff_getElem?.mp hp
    exact List.getElem?_mem (by simpa using this)
  exact selectTexts_eq_nil_all uq p.2 (h p.2 hw) p.1

theorem take_take_drop_reassemble {α : Type} (l : List α) (s e : Nat)
    (hse : s ≤ e) :
    l.take s ++ (l.drop s).take (e - s) ++ l.drop e = l := by
  have h2 : (l.drop s).drop (e - s) = l.drop e := by
    rw [List.drop_drop]
    congr 1
    omega
  calc l.take s ++ (l.drop s).take (e - s) ++ l.drop e
      = l.take s ++ ((l.drop s).take (e - s) ++ (l.drop s).drop (e - s)) := by
        rw [h2, List.append_assoc]
    _ = l.take s ++ l.drop s := by rw [List.take_append_drop]
    _ = l := List.take_append_drop s l

theorem runBatchesF_no_pending (uq : String → String)
    (tr : String → Nat → Option String) (R B : Nat) (words : List WordData)
    (h : ∀ w ∈ words, selectTexts uq 0 w = []) :
    ∀ (fuel start : Nat), runBatchesF uq tr R B fuel words start = words := by
  intro fuel
  induction fuel with
  | zero => intro start; rfl
  | succ fuel ih =>
    intro start
    show (if start < words.length then _ else words) = words
    by_cases hs : start < words.length
    · rw [if_pos hs]
      have hsel : selectAll uq
          ((words.drop start).take (min (start + B) words.length - start)) = [] := by
        apply selectAll_eq_nil
        intro w hw
        exact h w (List.mem_of_mem_drop (List.mem_of_mem_take hw))
      have hproc : processBatchWords uq tr R
          ((words.drop start).take (min (start + B) words.length - start)) =
          (words.drop start).take (min (start + B) words.length - start) := by
        rw [processBatchWords, if_pos hsel]
      rw [hproc, take_take_drop_reassemble words start (min (start + B) words.length)
            (le_min (Nat.le_add_right start B) (Nat.le_of_lt hs))]
      exact ih (min (start + B) words.length)
    · rw [if_neg hs]

theorem batchTrace_no_pending (uq : String → String)
    (tr : String → Nat → Option String) (R B : Nat) (words : List WordData)
    (h : ∀ w ∈ words, selectTexts uq 0 w = []) :
    ∀ (fuel start : Nat), ∀ e ∈ batchTrace uq tr R B fuel words start,
      ∃ p, e = Ev.ckpt p := by
  intro fuel
  induction fuel with
  | zero => intro start e he; exact absurd he (List.not_mem_nil _)
  | succ fuel ih =>
    intro start e he
    have hsel : selectAll uq
        ((words.drop start).take (min (start + B) words.length - start)) = [] := by
      apply selectAll_eq_nil
      intro w hw
      exact h w (List.mem_of_mem_drop (List.mem_of_mem_take hw))
    by_cases hs : start < words.length
    · rw [show batchTrace uq tr R B (fuel + 1) words start =
          (if start < words.length then
            (if selectAll uq ((words.drop start).take
                (min (start + B) words.length - start)) = [] then
              Ev.ckpt (min (start + B) words.length)
                :: batchTrace uq tr R B fuel words (min (start + B) words.length)
            else _)
          else []) from rfl, if_pos hs, if_pos hsel] at he
      rcases List.mem_cons.mp he with rfl | he2
      · exact ⟨min (start + B) words.length, rfl⟩
      · exact ih (min (start + B) words.length) e he2
    · rw [show batchTrace uq tr R B (fuel + 1) words start =
          (if start < words.length then _ else []) from rfl, if_neg hs] at he
      exact absurd he (List.not_mem_nil _)

/-- Claim C5: running the pipeline on a record store in which no field
satisfies the needs-work predicate leaves the record list unchanged, the
run performs no in-memory mutation, and every Record Store rewrite in the
run (only the final save) writes content identical to the loaded one, so
the store file is rewritten with byte-for-byte identical content. -/
theorem pipeline_second_run_identity (uq : String → String)
    (tr : String → Nat → Option String) (R B : Nat) (words : List WordData)
    (h : ∀ w ∈ words, selectTexts uq 0 w = []) :
    pipelineResult uq tr R B none words = words ∧
    ∀ e ∈ pipelineTrace uq tr R B none words,
      (∀ c, e ≠ Ev.mutate c) ∧ (∀ c, e = Ev.store c → c = words) := by
  constructor
  · rw [pipelineResult]
    by_cases h0 : words.length ≤ (none : Option Nat).getD 0
    · rw [if_pos h0]
    · rw [if_neg h0]
      exact runBatchesF_no_pending uq tr R B words h _ _
  · intro e he
    rw [pipelineTrace] at he
    by_cases h0 : words.length ≤ (none : Option Nat).getD 0
    · rw [if_pos h0] at he
      exact absurd he (List.not_mem_nil _)
    · rw [if_neg h0] at he
      rcases List.mem_append.mp he with hb | hfin
      · rcases batchTrace_no_pending uq tr R B words h _ _ e hb with ⟨p, rfl⟩
        exact ⟨fun c hc => Ev.noConfusion hc, fun c hc => Ev.noConfusion hc⟩
      · rw [runBatchesF_no_pending uq tr R B words h _ _] at hfin
        rcases List.mem_cons.mp hfin with rfl | hfin2
        · refine ⟨fun c hc => Ev.noConfusion hc, fun c hc => ?_⟩
          exact (Ev.store.inj hc).symm
        · rcases List.mem_cons.mp hfin2 with rfl | hfin3
          · exact ⟨fun c hc => Ev.noConfusion hc, fun c hc => Ev.noConfusion hc⟩
          · exact absurd hfin3 (List.not_mem_nil _)

/-- Claim C5, witness: a one-record store whose only record is fully
translated; the pipeline returns it unchanged. -/
theorem pipeline_second_run_identity_witness :
    (∀ w ∈ [WordData.mk (some "Haus") (some "house") [] []],
      selectTexts (fun s => s) 0 w = []) ∧
    pipelineResult (fun s => s) (fun _ _ => none) 3 30 none
        [WordData.mk (some "Haus") (some "house") [] []]
      = [WordData.mk (some "Haus") (some "house") [] []] :=
  ⟨by decide,
   (pipeline_second_run_identity (fun s => s) (fun _ _ => none) 3 30
      [WordData.mk (some "Haus") (some "house") [] []] (by decide)).1⟩

theorem ckptSafe_append_final :
    ∀ (t : List Ev) (d m c : List WordData),
      ckptSafe d m t → ckptSafe d m (t ++ [Ev.store c, Ev.delCkpt]) := by
  intro t
  induction t with
  | nil =>
    intro d m c _
    show ckptSafe c m [Ev.delCkpt]
    show ckptSafe c m []
    trivial
  | cons e r ih =>
    intro d m c h
    cases e with
    | mutate c2 => exact ih d c2 c h
    | store c2 => exact ih c2 m c h
    | ckpt p => exact ⟨h.1, ih d m c h.2⟩
    | delCkpt => exact ih d m c h

theorem batchTrace_ckptSafe (uq : String → String)
    (tr : String → Nat → Option String) (R B : Nat) :
    ∀ (fuel : Nat) (words : List WordData) (start : Nat),
      ckptSafe words words (batchTrace uq tr R B fuel words start) := by
  intro fuel
  induction fuel with
  | zero => intro words start; trivial
  | succ fuel ih =>
    intro words start
    show ckptSafe words words
      (if start < words.length then
        (if selectAll uq ((words.drop start).take
            (min (start + B) words.length - start)) = [] then
          Ev.ckpt (min (start + B) words.length)
            :: batchTrace uq tr R B fuel words (min (start + B) words.length)
        else
          Ev.mutate _ :: Ev.store _ :: Ev.ckpt (min (start + B) words.length)
            :: batchTrace uq tr R B fuel _ (min (start + B) words.length))
      else [])
    by_cases hs : start < words.length
    · rw [if_pos hs]
      by_cases hsel : selectAll uq ((words.drop start).take
          (min (start + B) words.length - start)) = []
      · rw [if_pos hsel]
        exact ⟨rfl, ih words (min (start + B) words.length)⟩
      · rw [if_neg hsel]
        exact ⟨rfl, ih _ (min (start + B) words.length)⟩
    · rw [if_neg hs]
      trivial

/-- Claim C7 (amended): in every batch iteration that performs translations
the Record Store is rewritten before that iteration's checkpoint write,
while an iteration with nothing to translate writes only the checkpoint;
at every checkpoint write of any run the on-disk Record Store content
equals the in-memory record state, so the checkpoint is never advanced to
a position whose corresponding Record Store state has not been written. -/
theorem ckpt_never_ahead_of_store (uq : String → String)
    (tr : String → Nat → Option String) (R B : Nat) (progress : Option Nat)
    (words : List WordData) :
    ckptSafe words words (pipelineTrace uq tr R B progress words) := by
  rw [pipelineTrace]
  by_cases h0 : words.length ≤ progress.getD 0
  · rw [if_pos h0]
    trivial
  · rw [if_neg h0]
    exact ckptSafe_append_final _ words words _
      (batchTrace_ckptSafe uq tr R B words.length words (progress.getD 0))

/-- Claim C7, counterexample to the claim as stated: a batch in which
nothing needs translation advances the checkpoint without any Record Store
rewrite in that iteration; in this concrete run the very first event is a
checkpoint write, with no store rewrite anywhere before it. -/
theorem ckpt_without_store_cx :
    ¬ storeBeforeCkpt (pipelineTrace (fun s => s) (fun _ _ => none) 3 30 none
        [WordData.mk (some "Haus") (some "house") [] []]) := by
  intro hcl
  have h0 : (pipelineTrace (fun s => s) (fun _ _ => none) 3 30 none
      [WordData.mk (some "Haus") (some "house") [] []])[0]? =
        some (Ev.ckpt 1) := by decide
  rcases hcl 0 1 h0 with ⟨j, c, hj, _⟩
  exact Nat.not_lt_zero j hj

theorem firstCkpt_batchTrace (uq : String → String)
    (tr : String → Nat → Option String) (R B : Nat) (fuel : Nat)
    (words : List WordData) (start : Nat) (rest : List Ev)
    (hs : start < words.length) (hf : fuel ≠ 0) :
    firstCkpt (batchTrace uq tr R B fuel words start ++ rest)
      = some (min (start + B) words.length) := by
  cases fuel with
  | zero => exact absurd rfl hf
  | succ fuel =>
    show firstCkpt
      ((if start < words.length then
          (if selectAll uq ((words.drop start).take
              (min (start + B) words.length - start)) = [] then
            Ev.ckpt (min (start + B) words.length)
              :: batchTrace uq tr R B fuel words (min (start + B) words.length)
          else
            Ev.mutate _ :: Ev.store _ :: Ev.ckpt (min (start + B) words.length)
              :: batchTrace uq tr R B fuel _ (min (start + B) words.length))
        else []) ++ rest) = _
    rw [if_pos hs]
    by_cases hsel : selectAll uq ((words.drop start).take
        (min (start + B) words.length - start)) = []
    · rw [if_pos hsel]
      rfl
    · rw [if_neg hsel]
      rfl

theorem runBatchesF_take (uq : String → String)
    (tr : String → Nat → Option String) (R B p : Nat) :
    ∀ (fuel : Nat) (words : List WordData) (start : Nat), p ≤ start →
      (runBatchesF uq tr R B fuel words start).take p = words.take p := by
  intro fuel
  induction fuel with
  | zero => intro words start _; rfl
  | succ fuel ih =>
    intro words start hp
    show (if start < words.length then _ else words).take p = words.take p
    by_cases hs : start < words.length
    · rw [if_pos hs]
      have hbend : start ≤ min (start + B) words.length :=
        le_min (Nat.le_add_right start B) (Nat.le_of_lt hs)
      rw [ih _ (min (start + B) words.length) (le_trans hp hbend)]
      have hlen : p ≤ (words.take start).length := by
        rw [List.length_take]
        exact le_min hp (le_trans hp (Nat.le_of_lt hs))
      rw [List.append_assoc, List.take_append_of_le_length hlen,
          List.take_take, min_eq_left hp]
    · rw [if_neg hs]

/-- Claim C8: the pipeline starts processing at the position stored in the
checkpoint file (an absent checkpoint file behaves exactly like a stored
position of zero); with a stored position p inside the level, the first
batch processed and checkpointed is the batch from p to min(p + B, total),
records before p are never touched, and the run that processes the
remaining batches ends by deleting the checkpoint file (the last event of
its trace is the checkpoint deletion, after the final store rewrite). -/
theorem checkpoint_resume_semantics (uq : String → String)
    (tr : String → Nat → Option String) (R B : Nat) (words : List WordData)
    (p : Nat) (hB : 0 < B) :
    (pipelineTrace uq tr R B none words
        = pipelineTrace uq tr R B (some 0) words ∧
      pipelineResult uq tr R B none words
        = pipelineResult uq tr R B (some 0) words) ∧
    (p < words.length →
      firstCkpt (pipelineTrace uq tr R B (some p) words)
        = some (min (p + B) words.length)) ∧
    (p < words.length →
      (pipelineTrace uq tr R B (some p) words).getLast? = some Ev.delCkpt) ∧
    (pipelineResult uq tr R B (some p) words).take p = words.take p := by
  refine ⟨⟨rfl, rfl⟩, ?_, ?_, ?_⟩
  · intro hp
    rw [pipelineTrace, if_neg (by simpa using Nat.not_le.mpr hp)]
    exact firstCkpt_batchTrace uq tr R B words.length words p _ hp (by omega)
  · intro hp
    rw [pipelineTrace, if_neg (by simpa using Nat.not_le.mpr hp)]
    rw [show ([Ev.store (runBatchesF uq tr R B words.length words
          ((some p).getD 0)), Ev.delCkpt] : List Ev)
        = [Ev.store (runBatchesF uq tr R B words.length words
            ((some p).getD 0))] ++ [Ev.delCkpt] from rfl,
        ← List.append_assoc]
    exact List.getLast?_concat _
  · rw [pipelineResult]
    by_cases h0 : words.length ≤ (some p).getD 0
    · rw [if_pos h0]
    · rw [if_neg h0]
      exact runBatchesF_take uq tr R B p words.length words p (Nat.le_refl p)

/-- Claim C8, witness: a two-record store resumed at position 1 with batch
size 1; the first checkpoint written is position 2, the last event is the
checkpoint deletion, and the record before position 1 is untouched. -/
theorem checkpoint_resume_semantics_witness :
    (0 : Nat) < 1 ∧ 1 < (2 : Nat) ∧
    firstCkpt (pipelineTrace (fun s => s) (fun _ _ => none) 3 1 (some 1)
        [WordData.mk (some "Berg") (some "Berg") [] [],
         WordData.mk (some "Tal") (some "valley") [] []])
      = some (min (1 + 1)
          ([WordData.mk (some "Berg") (some "Berg") [] [],
            WordData.mk (some "Tal") (some "valley") [] []].length)) ∧
    (pipelineTrace (fun s => s) (fun _ _ => none) 3 1 (some 1)
        [WordData.mk (some "Berg") (some "Berg") [] [],
         WordData.mk (some "Tal") (some "valley") [] []]).getLast?
      = some Ev.delCkpt ∧
    (pipelineResult (fun s => s) (fun _ _ => none) 3 1 (some 1)
        [WordData.mk (some "Berg") (some "Berg") [] [],
         WordData.mk (some "Tal") (some "valley") [] []]).take 1
      = [WordData.mk (some "Berg") (some "Berg") [] [],
         WordData.mk (some "Tal") (some "valley") [] []].take 1 :=
  ⟨by decide, by decide,
   (checkpoint_resume_semantics (fun s => s) (fun _ _ => none) 3 1
      [WordData.mk (some "Berg") (some "Berg") [] [],
       WordData.mk (some "Tal") (some "valley") [] []] 1 (by decide)).2.1
     (by decide),
   (checkpoint_resume_semantics (fun s => s) (fun _ _ => none) 3 1
      [WordData.mk (some "Berg") (some "Berg") [] [],
       WordData.mk (some "Tal") (some "valley") [] []] 1 (by decide)).2.2.1
     (by decide),
   (checkpoint_resume_semantics (fun s => s) (fun _ _ => none) 3 1
      [WordData.mk (some "Berg") (some "Berg") [] [],
       WordData.mk (some "Tal") (some "valley") [] []] 1 (by decide)).2.2.2⟩

/-- The per-worker extraction loop, process_chunk (parallel_extract.py
lines 10-25): extract each word of the shard in order; a falsy result or a
raised exception contributes nothing.  The extractor f maps a word to an
Option, with none modelling both failure cases. -/
def process_chunk {α β : Type} (f : α → Option β) (chunk : List α) : List β :=
  chunk.foldl (fun acc w =>
    match f w with
    | some r => acc ++ [r]
    | none => acc) []

/-- The shard partition of run_parallel_extraction (parallel_extract.py
lines 44-54): worker i takes the slice from i*c to (i+1)*c where
c = N / W rounded down, and the last worker takes everything from
(W-1)*c to the end. -/
def makeShards {α : Type} (W : Nat) (l : List α) : List (List α) :=
  (List.range W).map (fun i =>
    if i = W - 1 then l.drop (i * (l.length / W))
    else (l.drop (i * (l.length / W))).take (l.length / W))

/-- run_parallel_extraction (parallel_extract.py lines 27-67): run the
worker over every shard and concatenate the per-shard result lists in
shard order. -/
def run_parallel_extraction {α β : Type} (f : α → Option β) (W : Nat)
    (l : List α) : List β :=
  ((makeShards W l).map (process_chunk f)).foldl (fun acc r => acc ++ r) []

theorem process_chunk_eq_filterMap {α β : Type} (f : α → Option β)
    (chunk : List α) : process_chunk f chunk = chunk.filterMap f := by
  have haux : ∀ (l : List α) (acc : List β),
      l.foldl (fun acc w =>
        match f w with
        | some r => acc ++ [r]
        | none => acc) acc = acc ++ l.filterMap f := by
    intro l
    induction l with
    | nil => intro acc; simp
    | cons x xs ih =>
      intro acc
      show (xs.foldl _ (match f x with
        | some r => acc ++ [r]
        | none => acc)) = acc ++ (x :: xs).filterMap f
      cases hf : f x with
      | none => rw [ih, List.filterMap_cons_none hf]
      | some r =>
        rw [ih, List.filterMap_cons_some hf]
        simp
  exact haux chunk []

theorem foldl_append_eq_flatten {β : Type} :
    ∀ (L : List (List β)) (acc : List β),
      L.foldl (fun acc r => acc ++ r) acc = acc ++ L.flatten := by
  intro L
  induction L with
  | nil => intro acc; simp
  | cons x xs ih =>
    intro acc
    show xs.foldl _ (acc ++ x) = acc ++ (x :: xs).flatten
    rw [ih, List.flatten_cons, List.append_assoc]

theorem makeShards_split {α : Type} (W : Nat) (l : List α) (hW : 0 < W) :
    makeShards W l =
      (List.range (W - 1)).map
        (fun i => (l.drop (i * (l.length / W))).take (l.length / W))
      ++ [l.drop ((W - 1) * (l.length / W))] := by
  have hW1 : W = (W - 1) + 1 := by omega
  calc makeShards W l
      = (List.range ((W - 1) + 1)).map (fun i =>
          if i = W - 1 then l.drop (i * (l.length / W))
          else (l.drop (i * (l.length / W))).take (l.length / W)) := by
        rw [← hW1]
        rfl
    _ = (List.range (W - 1)).map (fun i =>
          if i = W - 1 then l.drop (i * (l.length / W))
          else (l.drop (i * (l.length / W))).take (l.length / W))
        ++ [if W - 1 = W - 1 then l.drop ((W - 1) * (l.length / W))
            else (l.drop ((W - 1) * (l.length / W))).take (l.length / W)] := by
        rw [List.range_succ, List.map_append]
        rfl
    _ = _ := by
        rw [if_pos rfl]
        congr 1
        apply List.map_congr_left
        intro i hi
        have : i < W - 1 := List.mem_range.mp hi
        rw [if_neg (by omega)]

theorem flatten_equal_shards {α : Type} (l : List α) (c : Nat) :
    ∀ (k : Nat), k * c ≤ l.length →
      ((List.range k).map (fun i => (l.drop (i * c)).take c)).flatten
        = l.take (k * c) := by
  intro k
  induction k with
  | zero => intro _; simp
  | succ k ih =>
    intro hk
    rw [Nat.succ_mul] at hk
    have hkc : k * c ≤ l.length := by omega
    rw [List.range_succ, List.map_append, List.flatten_append, ih hkc]
    have h1 : (k + 1) * c = k * c + c := Nat.succ_mul k c
    rw [h1, List.take_add]
    simp

/-- Claim C6: for every word list and positive worker count W, the shard
partition consists of W contiguous shards, shards 0 .. W-2 each of size
N / W rounded down, the last shard of size N - (W-1)*(N / W); the shards
concatenated in shard order equal the input list; and the merged output of
run_parallel_extraction is the concatenation of the per-shard result lists
in shard order. -/
theorem shards_partition_merge {α β : Type} (f : α → Option β) (W : Nat)
    (l : List α) (hW : 0 < W) :
    (makeShards W l).length = W ∧
    (∀ i, i < W - 1 → ((makeShards W l)[i]?).map List.length
        = some (l.length / W)) ∧
    ((makeShards W l)[W - 1]?).map List.length
        = some (l.length - (W - 1) * (l.length / W)) ∧
    (makeShards W l).flatten = l ∧
    run_parallel_extraction f W l
      = ((makeShards W l).map (fun s => s.filterMap f)).flatten := by
  have hWc : W * (l.length / W) ≤ l.length := by
    rw [Nat.mul_comm]
    exact Nat.div_mul_le_self l.length W
  refine ⟨?_, ?_, ?_, ?_, ?_⟩
  · simp [makeShards]
  · intro i hi
    rw [makeShards, List.getElem?_map,
        List.getElem?_range (by omega : i < W)]
    rw [Option.map_some', if_neg (by omega : ¬ i = W - 1)]
    rw [Option.map_some', List.length_take, List.length_drop]
    have h1 : (i + 1) * (l.length / W) ≤ W * (l.length / W) :=
      Nat.mul_le_mul_right _ (by omega)
    have h2 : (i + 1) * (l.length / W) = i * (l.length / W) + l.length / W :=
      Nat.succ_mul i (l.length / W)
    congr 1
    omega
  · rw [makeShards, List.getElem?_map,
        List.getElem?_range (by omega : W - 1 < W)]
    rw [Option.map_some', if_pos rfl, Option.map_some', List.length_drop]
  · rw [makeShards_split W l hW, List.flatten_append]
    have h1 : (W - 1) * (l.length / W) ≤ W * (l.length / W) :=
      Nat.mul_le_mul_right _ (by omega)
    rw [flatten_equal_shards l (l.length / W) (W - 1) (by omega)]
    simp
  · rw [run_parallel_extraction, foldl_append_eq_flatten, List.nil_append]
    congr 1
    apply List.map_congr_left
    intro s _
    exact process_chunk_eq_filterMap f s

/-- Claim C6, witness: seven words over three workers; shard sizes are
2, 2 and 3, the shards concatenate to the input, and the merged extraction
output is the shard-order concatenation. -/
theorem shards_partition_merge_witness :
    (0 : Nat) < 3 ∧
    ((makeShards 3 [0, 1, 2, 3, 4, 5, 6]).length = 3 ∧
      ((makeShards 3 [0, 1, 2, 3, 4, 5, 6])[0]?).map List.length
        = some ([0, 1, 2, 3, 4, 5, 6].length / 3) ∧
      ((makeShards 3 [0, 1, 2, 3, 4, 5, 6])[3 - 1]?).map List.length
        = some ([0, 1, 2, 3, 4, 5, 6].length
            - (3 - 1) * ([0, 1, 2, 3, 4, 5, 6].length / 3)) ∧
      (makeShards 3 [0, 1, 2, 3, 4, 5, 6]).flatten = [0, 1, 2, 3, 4, 5, 6] ∧
      run_parallel_extraction (fun n => if n % 2 = 0 then some n else none) 3
          [0, 1, 2, 3, 4, 5, 6]
        = ((makeShards 3 [0, 1, 2, 3, 4, 5, 6]).map
            (fun s => s.filterMap
              (fun n => if n % 2 = 0 then some n else none))).flatten) :=
  ⟨by decide,
   (shards_partition_merge (fun n => if n % 2 = 0 then some n else none) 3
      [0, 1, 2, 3, 4, 5, 6] (by decide)).1,
   (shards_partition_merge (fun n => if n % 2 = 0 then some n else none) 3
      [0, 1, 2, 3, 4, 5, 6] (by decide)).2.1 0 (by decide),
   (shards_partition_merge (fun n => if n % 2 = 0 then some n else none) 3
      [0, 1, 2, 3, 4, 5, 6] (by decide)).2.2.1,
   (shards_partition_merge (fun n => if n % 2 = 0 then some n else none) 3
      [0, 1, 2, 3, 4, 5, 6] (by decide)).2.2.2.1,
   (shards_partition_merge (fun n => if n % 2 = 0 then some n else none) 3
      [0, 1, 2, 3, 4, 5, 6] (by decide)).2.2.2.2⟩

/-- Model of a record as consumed by update_level
(update_wortzerlegung.py lines 214-224): the two fields the loop writes,
each absent or present, with every other field of the record abstracted
into rest. -/
structure WZRecord (α : Type) where
  composition : Option (List String)
  decompositionMeaning : Option (List String)
  rest : α
deriving DecidableEq

/-- Application of one scrape result (idx, composition, meanings) to the
record list (source lines 215-224): a non-empty composition overwrites both
fields; an empty composition only fills absent fields with the empty
list. -/
def applyResult {α : Type} (ws : List (WZRecord α))
    (r : Nat × List String × List String) : List (WZRecord α) :=
  if r.2.1 ≠ [] then
    ws.modify (fun w => { w with composition := some r.2.1,
                                 decompositionMeaning := some r.2.2 }) r.1
  else
    ws.modify (fun w => { w with
      composition := some (w.composition.getD []),
      decompositionMeaning := some (w.decompositionMeaning.getD []) }) r.1

/-- The result-application loop of one batch of update_level
(source lines 213-224). -/
def applyResults {α : Type} (ws : List (WZRecord α))
    (results : List (Nat × List String × List String)) : List (WZRecord α) :=
  results.foldl applyResult ws

/-- A field value is kept, or was absent and defaulted to the empty
list. -/
def keptOrDefaulted (a b : Option (List String)) : Prop :=
  b = a ∨ (a = none ∧ b = some [])

theorem keptOrDefaulted_trans {a b c : Option (List String)}
    (h1 : keptOrDefaulted a b) (h2 : keptOrDefaulted b c) :
    keptOrDefaulted a c := by
  rcases h1 with h1 | ⟨ha, hb⟩
  · rw [h1] at h2
    exact h2
  · rcases h2 with h2 | ⟨hb2, _⟩
    · rw [hb] at h2
      exact Or.inr ⟨ha, h2⟩
    · rw [hb] at hb2
      exact absurd hb2 (by simp)

theorem applyResult_length {α : Type} (ws : List (WZRecord α))
    (r : Nat × List String × List String) :
    (applyResult ws r).length = ws.length := by
  unfold applyResult
  by_cases hc : r.2.1 ≠ [] <;> simp [hc]

theorem applyResult_rest {α : Type} (ws : List (WZRecord α))
    (r : Nat × List String × List String) (i : Nat) :
    ((applyResult ws r)[i]?).map WZRecord.rest
      = (ws[i]?).map WZRecord.rest := by
  unfold applyResult
  by_cases hc : r.2.1 ≠ []
  · rw [if_pos hc, List.getElem?_modify]
    cases ws[i]? with
    | none => rfl
    | some a => by_cases hri : r.1 = i <;> simp [hri]
  · rw [if_neg hc, List.getElem?_modify]
    cases ws[i]? with
    | none => rfl
    | some a => by_cases hri : r.1 = i <;> simp [hri]

theorem applyResult_untouched {α : Type} (ws : List (WZRecord α))
    (r : Nat × List String × List String) (i : Nat) (hri : r.1 ≠ i) :
    (applyResult ws r)[i]? = ws[i]? := by
  unfold applyResult
  by_cases hc : r.2.1 ≠ []
  · rw [if_pos hc, List.getElem?_modify]
    cases ws[i]? with
    | none => rfl
    | some a => simp [hri]
  · rw [if_neg hc, List.getElem?_modify]
    cases ws[i]? with
    | none => rfl
    | some a => simp [hri]

theorem applyResults_length {α : Type} :
    ∀ (results : List (Nat × List String × List String))
      (ws : List (WZRecord α)),
      (applyResults ws results).length = ws.length := by
  intro results
  induction results with
  | nil => intro ws; rfl
  | cons r rs ih =>
    intro ws
    show (applyResults (applyResult ws r) rs).length = ws.length
    rw [ih, applyResult_length]

theorem applyResults_rest {α : Type} :
    ∀ (results : List (Nat × List String × List String))
      (ws : List (WZRecord α)) (i : Nat),
      ((applyResults ws results)[i]?).map WZRecord.rest
        = (ws[i]?).map WZRecord.rest := by
  intro results
  induction results with
  | nil => intro ws i; rfl
  | cons r rs ih =>
    intro ws i
    show ((applyResults (applyResult ws r) rs)[i]?).map WZRecord.rest = _
    rw [ih, applyResult_rest]

theorem applyResults_untouched {α : Type} :
    ∀ (results : List (Nat × List String × List String))
      (ws : List (WZRecord α)) (i : Nat),
      (∀ r ∈ results, r.1 ≠ i) →
      (applyResults ws results)[i]? = ws[i]? := by
  intro results
  induction results with
  | nil => intro ws i _; rfl
  | cons r rs ih =>
    intro ws i h
    show (applyResults (applyResult ws r) rs)[i]? = ws[i]?
    rw [ih _ i (fun x hx => h x (List.mem_cons_of_mem r hx)),
        applyResult_untouched ws r i (h r (List.mem_cons_self r rs))]

theorem applyResults_empty_comp {α : Type}
    (results : List (Nat × List String × List String)) (i : Nat) :
    ∀ (ws : List (WZRecord α)) (w : WZRecord α),
      (∀ r ∈ results, r.1 = i → r.2.1 = []) →
      ws[i]? = some w →
      ∃ w2, (applyResults ws results)[i]? = some w2 ∧
        keptOrDefaulted w.composition w2.composition ∧
        keptOrDefaulted w.decompositionMeaning w2.decompositionMeaning ∧
        w2.rest = w.rest := by
  induction results with
  | nil =>
    intro ws w _ hw
    exact ⟨w, hw, Or.inl rfl, Or.inl rfl, rfl⟩
  | cons r rs ih =>
    intro ws w hall hw
    show ∃ w2, (applyResults (applyResult ws r) rs)[i]? = some w2 ∧ _
    by_cases hri : r.1 = i
    · have hcomp : r.2.1 = [] := hall r (List.mem_cons_self r rs) hri
      have h1 : (applyResult ws r)[i]? = some
          { w with composition := some (w.composition.getD []),
                   decompositionMeaning :=
                     some (w.decompositionMeaning.getD []) } := by
        unfold applyResult
        rw [if_neg (fun hne => hne hcomp), List.getElem?_modify, hri, hw]
        simp
      rcases ih (applyResult ws r) _
          (fun r2 h2 => hall r2 (List.mem_cons_of_mem r h2)) h1
        with ⟨w2, hw2, hk1, hk2, hr⟩
      refine ⟨w2, hw2, ?_, ?_, hr⟩
      · refine keptOrDefaulted_trans ?_ hk1
        cases hcw : w.composition with
        | none => exact Or.inr ⟨rfl, by simp⟩
        | some v => exact Or.inl (by simp)
      · refine keptOrDefaulted_trans ?_ hk2
        cases hcw : w.decompositionMeaning with
        | none => exact Or.inr ⟨rfl, by simp⟩
        | some v => exact Or.inl (by simp)
    · have h1 : (applyResult ws r)[i]? = some w := by
        rw [applyResult_untouched ws r i hri]
        exact hw
      exact ih (applyResult ws r) w
        (fun r2 h2 => hall r2 (List.mem_cons_of_mem r h2)) h1

/-- Claim C10: in the result-application step of update_level, the record
list keeps its length; the rest of every record (every field other than
composition and decompositionMeaning) is never modified; a record targeted
by no result is unchanged; when every result targeting a record carries an
empty scraped composition, the record's composition and
decompositionMeaning values are left unchanged except that an absent field
is set to the empty list; and a result with a non-empty scraped composition
overwrites both fields of its record with the scraped values. -/
theorem wortzerlegung_frame {α : Type}
    (results : List (Nat × List String × List String))
    (ws : List (WZRecord α)) (i idx : Nat) (comp dm : List String)
    (w : WZRecord α) :
    (applyResults ws results).length = ws.length ∧
    ((applyResults ws results)[i]?).map WZRecord.rest
      = (ws[i]?).map WZRecord.rest ∧
    ((∀ r ∈ results, r.1 ≠ i) → (applyResults ws results)[i]? = ws[i]?) ∧
    ((∀ r ∈ results, r.1 = i → r.2.1 = []) → ws[i]? = some w →
      ∃ w2, (applyResults ws results)[i]? = some w2 ∧
        keptOrDefaulted w.composition w2.composition ∧
        keptOrDefaulted w.decompositionMeaning w2.decompositionMeaning ∧
        w2.rest = w.rest) ∧
    (comp ≠ [] → ws[idx]? = some w →
      (applyResult ws (idx, comp, dm))[idx]?
        = some (WZRecord.mk (some comp) (some dm) w.rest)) := by
  refine ⟨applyResults_length results ws, applyResults_rest results ws i,
    applyResults_untouched results ws i,
    applyResults_empty_comp results i ws w, ?_⟩
  intro hc hw
  unfold applyResult
  rw [if_pos (by simpa using hc), List.getElem?_modify, hw]
  simp

/-- Claim C10, witness: two records; a non-empty scrape overwrites record 0,
an empty scrape leaves record 1's present fields unchanged, and every rest
field survives. -/
theorem wortzerlegung_frame_witness :
    (applyResults [WZRecord.mk none none "a",
        WZRecord.mk (some ["x"]) (some ["y"]) "b"]
      [(0, ["Haus"], ["root word: Haus"]), (1, [], [])]).length
      = ([WZRecord.mk none none "a",
          WZRecord.mk (some ["x"]) (some ["y"]) "b"] : List (WZRecord String)).length ∧
    (∃ w2, (applyResults [WZRecord.mk none none "a",
        WZRecord.mk (some ["x"]) (some ["y"]) "b"]
        [(0, ["Haus"], ["root word: Haus"]), (1, [], [])])[1]? = some w2 ∧
      keptOrDefaulted (some ["x"]) w2.composition ∧
      keptOrDefaulted (some ["y"]) w2.decompositionMeaning ∧
      w2.rest = "b") ∧
    (applyResult [WZRecord.mk none none "a",
        WZRecord.mk (some ["x"]) (some ["y"]) "b"]
        (0, ["Haus"], ["root word: Haus"]))[0]?
      = some (WZRecord.mk (some ["Haus"]) (some ["root word: Haus"]) "a") :=
  ⟨(wortzerlegung_frame [(0, ["Haus"], ["root word: Haus"]), (1, [], [])]
      [WZRecord.mk none none "a", WZRecord.mk (some ["x"]) (some ["y"]) "b"]
      1 0 ["Haus"] ["root word: Haus"]
      (WZRecord.mk (some ["x"]) (some ["y"]) "b")).1,
   (wortzerlegung_frame [(0, ["Haus"], ["root word: Haus"]), (1, [], [])]
      [WZRecord.mk none none "a", WZRecord.mk (some ["x"]) (some ["y"]) "b"]
      1 0 ["Haus"] ["root word: Haus"]
      (WZRecord.mk (some ["x"]) (some ["y"]) "b")).2.2.2.1
     (by decide) (by decide),
   (wortzerlegung_frame [(0, ["Haus"], ["root word: Haus"]), (1, [], [])]
      [WZRecord.mk none none "a", WZRecord.mk (some ["x"]) (some ["y"]) "b"]
      1 0 ["Haus"] ["root word: Haus"]
      (WZRecord.mk none none "a")).2.2.2.2
     (by decide) (by decide)⟩

end Pond
